import Mathlib

/-!
Shallow embedding of the core orchestration engine of the gemini-mcp-remote
repository: token estimation, token-limit validation, credential resolution,
credential-rotation retry execution, file grouping (deterministic and
AI-assisted), batch analysis coordination, and group-plan re-hydration.

Text is modelled as `List Char`.  JavaScript numbers that are always
non-negative integers in the source (token counts, indices, millisecond
durations) are modelled as `Nat`.  The fractional weights of the token
estimator (`0.5`, `0.1`, `0.2`, `0.3`) are applied under `Math.ceil`; for a
natural count `n` the source value `Math.ceil(n * w)` is the exact rational
ceiling, embedded as the corresponding exact natural-number expression
(for instance `Math.ceil(n * 0.5) = (n + 1) / 2` in natural division).
Fallible code is modelled with `Except`.
-/

namespace GeminiRemote

/-- The fixed special-character class of the token estimators, from the regex
character class of the source (braces and the backtick are written via
`Char.ofNat` with their ASCII codes 123, 125 and 96). -/
def specialChars : List Char :=
  [Char.ofNat 123, Char.ofNat 125, '[', ']', '(', ')', ';', ',', '.', '<', '>',
   '/', '\\', '=', '+', '-', '*', '&', '|', '!', '@', '#', '$', '%', '^',
   Char.ofNat 96, '~']

/-- Embedding of `calculateTokens` (source lines 391-418): base cost
`ceil(length / 4)` plus individually rounded-up corrections for newlines
(weight 0.5), single space characters (weight 0.1) and special characters
(weight 0.2). -/
def calculateTokens (text : List Char) : Nat :=
  let basicEstimate := (text.length + 3) / 4
  let newlineCount := text.count '\n'
  let spaceCount := text.count ' '
  let specialCharsCount := text.countP (fun c => specialChars.contains c)
  basicEstimate + (newlineCount + 1) / 2 + (spaceCount + 9) / 10 +
    (specialCharsCount + 4) / 5

/-- The fixed ceiling of `validateTokenLimit` (source line 426). -/
def GEMINI_25_PRO_TOKEN_LIMIT : Nat := 1000000

/-- The descriptive error text thrown by `validateTokenLimit`; the source
interpolates the three per-part estimates, the total, the excess and the
content size into a fixed template.  Locale-formatted numbers are embedded
as plain decimal numerals. -/
def tokenLimitExceededMessage (contentTokens systemTokens questionTokens
    contentLength : Nat) : List Char :=
  let totalTokens := contentTokens + systemTokens + questionTokens
  ("Token limit exceeded! Project content: ".data) ++
    (Nat.repr contentTokens).data ++
    (" tokens System prompt: ".data) ++ (Nat.repr systemTokens).data ++
    (" tokens Your question: ".data) ++ (Nat.repr questionTokens).data ++
    (" tokens Total: ".data) ++ (Nat.repr totalTokens).data ++
    (" tokens Limit exceeded by: ".data) ++
    (Nat.repr (totalTokens - GEMINI_25_PRO_TOKEN_LIMIT)).data ++
    (" tokens Gemini 2.5 Pro limit: ".data) ++
    (Nat.repr GEMINI_25_PRO_TOKEN_LIMIT).data ++
    (" tokens Current project size: ".data) ++
    (Nat.repr (contentLength / 1024)).data ++ (" KB".data)

/-- Embedding of `validateTokenLimit` (source lines 421-461): sum the three
independent estimates and throw (here: return `Except.error`) exactly when the
total strictly exceeds the fixed ceiling.  The function is pure in the source
apart from a monitoring `console.log` on the success path; it performs no
network call. -/
def validateTokenLimit (content systemPrompt question : List Char) :
    Except (List Char) Unit :=
  let contentTokens := calculateTokens content
  let systemTokens := calculateTokens systemPrompt
  let questionTokens := calculateTokens question
  let totalTokens := contentTokens + systemTokens + questionTokens
  if totalTokens > GEMINI_25_PRO_TOKEN_LIMIT then
    Except.error
      (tokenLimitExceededMessage contentTokens systemTokens questionTokens
        content.length)
  else
    Except.ok ()

/-- Boolean test that `pat` is a leading segment of `l` (character-wise). -/
def isPre : List Char → List Char → Bool
  | [], _ => true
  | _ :: _, [] => false
  | a :: pa, b :: pl => a == b && isPre pa pl

/-- The structural keywords counted by `calculateFileTokens`, in the
alternation order of the source regex
`(function|class|interface|import|export|const|let|var)`. -/
def kwFunction : List Char := "function".data
def kwClass : List Char := "class".data
def kwInterface : List Char := "interface".data
def kwImport : List Char := "import".data
def kwExport : List Char := "export".data
def kwConst : List Char := "const".data
def kwLet : List Char := "let".data
def kwVar : List Char := "var".data

def kws : List (List Char) :=
  [kwFunction, kwClass, kwInterface, kwImport, kwExport, kwConst, kwLet, kwVar]

/-- The keyword (if any) matched by the source regex alternation at the head
of `l`: the first keyword in alternation order that is a leading segment. -/
def kwAt (l : List Char) : Option (List Char) :=
  kws.find? (fun k => isPre k l)

/-- Fuel-indexed left-to-right non-overlapping scan counting keyword matches,
mirroring a global regex `match` over the text: at each position, if a keyword
matches, count it and resume after it; otherwise advance one character. -/
def kwScanF : Nat → List Char → Nat
  | 0, _ => 0
  | fuel + 1, l =>
    match l with
    | [] => 0
    | c :: rest =>
      match kwAt (c :: rest) with
      | some k => 1 + kwScanF fuel ((c :: rest).drop k.length)
      | none => kwScanF fuel rest

/-- Number of non-overlapping keyword matches of the source regex
`(function|class|interface|import|export|const|let|var)/g` in `l`
(`codeStructuresCount` of `calculateFileTokens`). -/
def kwScan (l : List Char) : Nat := kwScanF l.length l

/-- Fuel-indexed scan counting the matches of the source regex `/ {2,}/g`:
maximal runs of at least two consecutive spaces, matched greedily and
non-overlapping. -/
def spaceRunsF : Nat → List Char → Nat
  | 0, _ => 0
  | fuel + 1, l =>
    match l with
    | [] => 0
    | [_] => 0
    | a :: b :: rest =>
      if a = ' ' ∧ b = ' ' then
        1 + spaceRunsF fuel (rest.dropWhile (fun c => c = ' '))
      else
        spaceRunsF fuel (b :: rest)

/-- Number of matches of `/ {2,}/g` in `l` (`spaceCount` of
`calculateFileTokens`). -/
def spaceRuns (l : List Char) : Nat := spaceRunsF l.length l

/-- Embedding of `calculateFileTokens` (source lines 2979-3000): like
`calculateTokens` but counting multi-space runs with weight 0.3 and structural
keyword occurrences with weight 2. -/
def calculateFileTokens (content : List Char) : Nat :=
  let basicEstimate := (content.length + 3) / 4
  let newlineCount := content.count '\n'
  let spaceCount := spaceRuns content
  let specialCharsCount := content.countP (fun c => specialChars.contains c)
  let codeStructuresCount := kwScan content
  basicEstimate + (newlineCount + 1) / 2 + (3 * spaceCount + 9) / 10 +
    (specialCharsCount + 4) / 5 + 2 * codeStructuresCount

/-- Embedding of the `FileTokenInfo` interface (source lines 2962-2966). -/
structure FileTokenInfo where
  filePath : String
  tokens : Nat
  content : List Char
deriving Repr, DecidableEq

/-- Embedding of the `FileGroup` interface (source lines 2968-2976); the four
optional descriptive fields are `undefined` (here `none`) for groups built by
the deterministic strategy. -/
structure FileGroup where
  files : List FileTokenInfo
  totalTokens : Nat
  groupIndex : Nat
  name : Option (List Char)
  description : Option (List Char)
  reasoning : Option (List Char)
  customPrompt : Option (List Char)
deriving Repr, DecidableEq

/-- The greedy accumulation loop of `createFileGroupsAlgorithmic` (source
lines 3233-3276), over the already sorted file list: a file larger than the
ceiling becomes its own group; otherwise the file is added to the running
group, which is closed first when adding would exceed the ceiling and the
running group is non-empty. -/
def createFileGroupsLoop (maxTokensPerGroup : Nat) :
    List FileTokenInfo → List FileTokenInfo → Nat → Nat → List FileGroup
  | [], currentGroup, currentTokens, groupIndex =>
    if currentGroup.isEmpty then []
    else
      [{ files := currentGroup, totalTokens := currentTokens,
         groupIndex := groupIndex, name := none, description := none,
         reasoning := none, customPrompt := none }]
  | file :: rest, currentGroup, currentTokens, groupIndex =>
    if file.tokens > maxTokensPerGroup then
      { files := [file], totalTokens := file.tokens, groupIndex := groupIndex,
        name := none, description := none, reasoning := none,
        customPrompt := none } ::
        createFileGroupsLoop maxTokensPerGroup rest currentGroup currentTokens
          (groupIndex + 1)
    else if currentTokens + file.tokens > maxTokensPerGroup ∧
        ¬ currentGroup.isEmpty then
      { files := currentGroup, totalTokens := currentTokens,
        groupIndex := groupIndex, name := none, description := none,
        reasoning := none, customPrompt := none } ::
        createFileGroupsLoop maxTokensPerGroup rest [file] file.tokens
          (groupIndex + 1)
    else
      createFileGroupsLoop maxTokensPerGroup rest (currentGroup ++ [file])
        (currentTokens + file.tokens) groupIndex

/-- Embedding of `createFileGroupsAlgorithmic` (source lines 3220-3279):
sort ascending by token count (JavaScript's stable sort with comparator
`a.tokens - b.tokens`, embedded as a stable insertion sort), then run the
greedy loop.  The source defaults (`maxTokensPerGroup = 900000`,
`startIndex = 0`) are passed explicitly by callers here. -/
def createFileGroupsAlgorithmic (files : List FileTokenInfo)
    (maxTokensPerGroup : Nat) (startIndex : Nat) : List FileGroup :=
  let sortedFiles :=
    files.insertionSort (fun a b => a.tokens ≤ b.tokens)
  createFileGroupsLoop maxTokensPerGroup sortedFiles [] 0 startIndex

/-- One group of the structured grouping proposal parsed from the AI response
of `createFileGroupsWithAI` (the element shape of `groupingData.groups`). -/
structure AIGroupProposal where
  name : List Char
  description : List Char
  reasoning : List Char
  customPrompt : List Char
  files : List String
deriving Repr, DecidableEq

/-- The proposal-processing loop of `createFileGroupsWithAI` (source lines
3138-3181): resolve each proposed path against the manifest via `find?`
(silently dropping unknown paths), accumulate the group's token total, accept
the group if it fits the ceiling and otherwise re-partition its files with the
deterministic strategy; returns the built groups and the next group index. -/
def processAIGroups (files : List FileTokenInfo) (maxTokensPerGroup : Nat) :
    List AIGroupProposal → Nat → List FileGroup × Nat
  | [], groupIndex => ([], groupIndex)
  | p :: rest, groupIndex =>
    let groupFiles :=
      p.files.filterMap (fun fp => files.find? (fun f => f.filePath = fp))
    let totalTokens := (groupFiles.map (fun f => f.tokens)).sum
    if totalTokens > maxTokensPerGroup then
      let split := createFileGroupsAlgorithmic groupFiles maxTokensPerGroup
        groupIndex
      let tail := processAIGroups files maxTokensPerGroup rest
        (groupIndex + split.length)
      (split ++ tail.1, tail.2)
    else
      let tail := processAIGroups files maxTokensPerGroup rest (groupIndex + 1)
      ({ files := groupFiles, totalTokens := totalTokens,
         groupIndex := groupIndex, name := some p.name,
         description := some p.description, reasoning := some p.reasoning,
         customPrompt := some p.customPrompt } :: tail.1, tail.2)

/-- The post-parse portion of `createFileGroupsWithAI` (source lines
3137-3208): process the proposed groups, then pack every manifest file not
claimed by any built group with the deterministic strategy and append the
result (the source guards the append with `remainingFiles.length > 0`). -/
def createFileGroupsWithAIParsed (files : List FileTokenInfo)
    (maxTokensPerGroup : Nat) (proposals : List AIGroupProposal) :
    List FileGroup :=
  let pr := processAIGroups files maxTokensPerGroup proposals 0
  let aiGroups := pr.1
  let includedFiles :=
    aiGroups.flatMap (fun g => g.files.map (fun f => f.filePath))
  let remainingFiles :=
    files.filter (fun f => ! includedFiles.contains f.filePath)
  if remainingFiles.length > 0 then
    aiGroups ++ createFileGroupsAlgorithmic remainingFiles maxTokensPerGroup
      pr.2
  else aiGroups

/-- Embedding of `createFileGroupsWithAI` (source lines 3027-3217).  The
entire try-block — the LLM call through the rotation executor, the JSON
extraction and parse of its response — either produces a structured proposal
list or throws; every throw lands in the single catch, which falls back to the
deterministic strategy over the whole manifest with start index 0.  That
attempt outcome is the `Except` argument. -/
def createFileGroupsWithAI (files : List FileTokenInfo)
    (maxTokensPerGroup : Nat)
    (attempt : Except (List Char) (List AIGroupProposal)) : List FileGroup :=
  match attempt with
  | Except.ok proposals =>
    createFileGroupsWithAIParsed files maxTokensPerGroup proposals
  | Except.error _ => createFileGroupsAlgorithmic files maxTokensPerGroup 0

/-- The rotatable-error signatures of `retryWithApiKeyRotation` (source lines
273-284), in source order; an error is rotatable when its message contains any
of them as a substring. -/
def sig429 : List Char := "429".data
def sigTooMany : List Char := "Too Many Requests".data
def sigQuota : List Char := "quota".data
def sigRateLimit : List Char := "rate limit".data
def sigExceededQuota : List Char := "exceeded your current quota".data
def sigKeyNotValid : List Char := "API key not valid".data
def sig503 : List Char := "503".data
def sigServiceUnavailable : List Char := "Service Unavailable".data
def sigOverloaded : List Char := "overloaded".data
def sigPleaseTryAgain : List Char := "Please try again later".data

def rotatableSignatures : List (List Char) :=
  [sig429, sigTooMany, sigQuota, sigRateLimit, sigExceededQuota,
   sigKeyNotValid, sig503, sigServiceUnavailable, sigOverloaded,
   sigPleaseTryAgain]

/-- Substring test (`String.prototype.includes`): `pat` occurs contiguously
somewhere in `l`. -/
def hasSub (pat : List Char) : List Char → Bool
  | [] => isPre pat []
  | c :: rest => isPre pat (c :: rest) || hasSub pat rest

/-- The rotatable-error classification of `retryWithApiKeyRotation`. -/
def isRotatableError (msg : List Char) : Bool :=
  rotatableSignatures.any (fun sig => hasSub sig msg)

/-- The timeout error of `retryWithApiKeyRotation` (source lines 334-336). -/
def rotationTimeoutMessage (attemptCount totalKeys : Nat)
    (lastError : Option (List Char)) : List Char :=
  ("Gemini API requests failed after 4 minutes with ".data) ++
    (Nat.repr attemptCount).data ++ (" attempts across ".data) ++
    (Nat.repr totalKeys).data ++
    (" API keys. All keys hit rate limits. Last error: ".data) ++
    lastError.getD ("Unknown error".data)

/-- Observable outcome of one executor run: the key index used by each
attempt in order, the number of 1-second backoff delays taken, and the final
result. -/
structure RotationTrace (α : Type) where
  attemptKeys : List Nat
  backoffs : Nat
  result : Except (List Char) α
deriving Repr

/-- The retry loop of `retryWithApiKeyRotation` (source lines 233-324).
`work attempt keyIndex` is the outcome of running `createModelFn` on the
credential at `keyIndex` followed by `requestFn`, at the given (1-based)
attempt number.  Wall-clock time is modelled by `elapsed`, advanced 1000 ms by
each backoff (the attempts themselves are instantaneous in the model); the
loop runs while `elapsed < maxDurationMs`.  `fuel` is a structural bound on
the iteration count; `rotationRun` supplies enough fuel that it never runs
out. -/
def rotationAux (work : Nat → Nat → Except (List Char) α)
    (numKeys maxDurationMs : Nat) :
    Nat → Nat → Nat → List Nat → Option (List Char) → RotationTrace α
  | 0, elapsed, _, keys, lastError =>
    { attemptKeys := keys, backoffs := elapsed / 1000,
      result := Except.error
        (rotationTimeoutMessage keys.length numKeys lastError) }
  | fuel + 1, elapsed, keyIndex, keys, lastError =>
    if elapsed < maxDurationMs then
      match work (keys.length + 1) keyIndex with
      | Except.ok v =>
        { attemptKeys := keys ++ [keyIndex], backoffs := elapsed / 1000,
          result := Except.ok v }
      | Except.error e =>
        if isRotatableError e then
          rotationAux work numKeys maxDurationMs fuel (elapsed + 1000)
            ((keyIndex + 1) % numKeys) (keys ++ [keyIndex]) (some e)
        else
          { attemptKeys := keys ++ [keyIndex], backoffs := elapsed / 1000,
            result := Except.error e }
    else
      { attemptKeys := keys, backoffs := elapsed / 1000,
        result := Except.error
          (rotationTimeoutMessage keys.length numKeys lastError) }

/-- Embedding of `retryWithApiKeyRotation`: start at attempt 0, key index 0,
elapsed time 0.  Since each iteration either terminates or advances `elapsed`
by 1000 ms, `maxDurationMs + 1` units of fuel are more than enough. -/
def rotationRun (work : Nat → Nat → Except (List Char) α)
    (numKeys maxDurationMs : Nat) : RotationTrace α :=
  rotationAux work numKeys maxDurationMs (maxDurationMs + 1) 0 0 [] none

/-- The per-group failure marker of the batch coordinator (source line
2604). -/
def groupFailureMessage (index : Nat) (e : List Char) : List Char :=
  ("**Group ".data) ++ (Nat.repr (index + 1)).data ++
    (" Analysis Failed:** ".data) ++ e

/-- Embedding of `analyzeGroup` (source lines 2545-2606): run the group's
analysis (prompt assembly, rotation executor and response extraction are
folded into `work`, which receives the group and its index); a success
returns the analysis text, any failure is caught and becomes the failure
marker carrying the error description. -/
def analyzeGroup (work : FileGroup → Nat → Except (List Char) (List Char))
    (group : FileGroup) (index : Nat) : List Char :=
  match work group index with
  | Except.ok analysis => analysis
  | Except.error e => groupFailureMessage index e

/-- Positional launch of every group analysis (source lines 2609-2614):
`groups.map((group, index) => analyzeGroup(group, index, index * 700))`
followed by `Promise.all`, which resolves positionally — outcome `i` is the
outcome of group `i` regardless of completion order. -/
def analyzeAllFrom (work : FileGroup → Nat → Except (List Char) (List Char)) :
    Nat → List FileGroup → List (List Char)
  | _, [] => []
  | index, g :: rest =>
    analyzeGroup work g index :: analyzeAllFrom work (index + 1) rest

/-- The group-analysis step of `project_orchestrator_analyze`: one outcome per
group, in input order, each resolved (success text or failure marker) before
the coordinator returns. -/
def analyzeAllGroups (work : FileGroup → Nat → Except (List Char) (List Char))
    (groups : List FileGroup) : List (List Char) :=
  analyzeAllFrom work 0 groups

/-- One file entry of the serialized group plan (path and token cost only —
content is deliberately not retained across the create/analyze boundary). -/
structure PlanFile where
  filePath : String
  tokens : Nat
deriving Repr, DecidableEq

/-- One group of the serialized plan handed to
`project_orchestrator_analyze`. -/
structure PlanGroup where
  files : List PlanFile
  totalTokens : Nat
  groupIndex : Nat
  name : Option (List Char)
  description : Option (List Char)
  reasoning : Option (List Char)
  customPrompt : Option (List Char)
deriving Repr, DecidableEq

/-- Re-hydration of one plan group (source lines 2510-2538): read each listed
file from disk; a file that can no longer be read (`readFile` returns `none`)
is skipped with a warning and does not fail the run.  The group keeps the
plan's token total and metadata. -/
def rehydrateGroup (readFile : String → Option (List Char))
    (groupData : PlanGroup) : FileGroup :=
  { files := groupData.files.filterMap (fun fd =>
      (readFile fd.filePath).map (fun content =>
        { filePath := fd.filePath, tokens := fd.tokens, content := content })),
    totalTokens := groupData.totalTokens,
    groupIndex := groupData.groupIndex,
    name := groupData.name, description := groupData.description,
    reasoning := groupData.reasoning, customPrompt := groupData.customPrompt }

/-- Re-hydration of the whole plan (the `for (const groupData of
groupsData.groups)` loop). -/
def rehydrateGroups (readFile : String → Option (List Char))
    (plan : List PlanGroup) : List FileGroup :=
  plan.map (rehydrateGroup readFile)

/-- The `geminiApiKeys` parameter may be a string or an array of strings. -/
inductive KeysVal where
  | str (v : List Char)
  | arr (v : List (List Char))
deriving Repr, DecidableEq

/-- The key-carrying fields of the tool parameters seen by `resolveApiKeys`
(source lines 141-213).  `none` models an absent (`undefined`) field; an
empty string models the other falsy string value.  `numberedKey i` is the
field `geminiApiKey{i}` for `i` in 2..100; `envGeminiApiKey` is the
`GEMINI_API_KEY` environment variable. -/
structure ApiParams where
  geminiApiKeys : Option KeysVal
  geminiApiKeysArray : Option (List (List Char))
  geminiApiKey : Option (List Char)
  numberedKey : Nat → Option (List Char)
  envGeminiApiKey : Option (List Char)

/-- The whitespace class trimmed by `String.prototype.trim` (ASCII part). -/
def jsWhitespace (c : Char) : Bool :=
  c = ' ' || c = '\t' || c = '\n' || c = '\r' || c = Char.ofNat 11 ||
    c = Char.ofNat 12

/-- `String.prototype.trim`. -/
def jsTrim (s : List Char) : List Char :=
  ((s.dropWhile jsWhitespace).reverse.dropWhile jsWhitespace).reverse

/-- `String.prototype.split(",")`: split at every comma, keeping empty
segments. -/
def splitOnComma : List Char → List (List Char)
  | [] => [[]]
  | c :: rest =>
    if c = ',' then [] :: splitOnComma rest
    else
      match splitOnComma rest with
      | h :: t => (c :: h) :: t
      | [] => [[c]]

/-- The comma-splitting pipeline used for multi-key strings:
`split(",").map(trim).filter(length > 0)`. -/
def splitTrimFilter (s : List Char) : List (List Char) :=
  ((splitOnComma s).map jsTrim).filter (fun k => k.length > 0)

/-- Priorities 2-4 of `resolveApiKeys` (source lines 174-212): the legacy
`geminiApiKey` field (comma-splittable), the numbered fields `geminiApiKey2`
through `geminiApiKey100`, and finally the `GEMINI_API_KEY` environment
variable. -/
def resolveApiKeysNumbered (params : ApiParams) : List (List Char) :=
  let base : List (List Char) :=
    match params.geminiApiKey with
    | some v =>
      if v ≠ [] then
        (if v.contains ',' then splitTrimFilter v else [v])
      else []
    | none => []
  let numbered : List (List Char) :=
    (List.range' 2 99).filterMap (fun i =>
      match params.numberedKey i with
      | some v => if v ≠ [] then some v else none
      | none => none)
  let keys := base ++ numbered
  if keys ≠ [] then keys
  else
    match params.envGeminiApiKey with
    | some v =>
      if v ≠ [] then
        (if v.contains ',' then splitTrimFilter v else [v])
      else []
    | none => []

/-- Priority 1.5 of `resolveApiKeys` (source lines 166-172): an explicit
non-empty `geminiApiKeysArray` is returned as-is. -/
def resolveApiKeysAfterPrimary (params : ApiParams) : List (List Char) :=
  match params.geminiApiKeysArray with
  | some l => if l ≠ [] then l else resolveApiKeysNumbered params
  | none => resolveApiKeysNumbered params

/-- Embedding of `resolveApiKeys` (source lines 141-213).  Priority 1: a
truthy `geminiApiKeys` string is comma-split (trimmed, empties dropped) when
it contains a comma and otherwise wrapped as a one-element list; a non-empty
`geminiApiKeys` array is returned as-is; an empty string is falsy and an
empty array fails the length check, both falling through to the later
priorities. -/
def resolveApiKeys (params : ApiParams) : List (List Char) :=
  match params.geminiApiKeys with
  | some (KeysVal.str v) =>
    if v ≠ [] then
      (if v.contains ',' then splitTrimFilter v else [v])
    else resolveApiKeysAfterPrimary params
  | some (KeysVal.arr l) =>
    if l ≠ [] then l else resolveApiKeysAfterPrimary params
  | none => resolveApiKeysAfterPrimary params

/-- Sum of the estimated token costs of a file list. -/
def sumTokens (files : List FileTokenInfo) : Nat :=
  (files.map (fun f => f.tokens)).sum

/-- Sum of the recorded `totalTokens` of a group list. -/
def sumGroups (groups : List FileGroup) : Nat :=
  (groups.map (fun g => g.totalTokens)).sum

/-- The end-to-end manifest of the spec's concrete grouping scenario: five
files of 200,000 tokens each. -/
def c8Files : List FileTokenInfo :=
  [{ filePath := "file1.ts", tokens := 200000, content := [] },
   { filePath := "file2.ts", tokens := 200000, content := [] },
   { filePath := "file3.ts", tokens := 200000, content := [] },
   { filePath := "file4.ts", tokens := 200000, content := [] },
   { filePath := "file5.ts", tokens := 200000, content := [] }]

/-- A one-file manifest used to instantiate universally quantified grouping
theorems at a concrete input. -/
def c1File : FileTokenInfo :=
  { filePath := "a.ts", tokens := 5, content := [] }

/-- Concrete rotation work for the three-credential scenario: attempts 1 and 2
fail with a rotatable rate-limit error, attempt 3 succeeds. -/
def c2ScenarioWork : Nat → Nat → Except (List Char) Nat :=
  fun attempt _ =>
    if attempt < 3 then Except.error ("429 Too Many Requests".data)
    else Except.ok 42

/-- An error message matching the claimed signature fragment
`try again later` but not the source's `Please try again later`. -/
def tryAgainLaterMessage : List Char := "try again later".data

/-- Rotation work that always fails with `tryAgainLaterMessage`. -/
def tryAgainWork : Nat → Nat → Except (List Char) Nat :=
  fun _ _ => Except.error tryAgainLaterMessage

/-- Rotation work that always fails with the rotatable message `quota`. -/
def quotaWork : Nat → Nat → Except (List Char) Nat :=
  fun _ _ => Except.error sigQuota

/-- A contentless group with a given index, for concrete coordinator runs. -/
def mkBareGroup (i : Nat) : FileGroup :=
  { files := [], totalTokens := 0, groupIndex := i, name := none,
    description := none, reasoning := none, customPrompt := none }

def c3Groups : List FileGroup := [mkBareGroup 0, mkBareGroup 1, mkBareGroup 2]

def c3BoomMessage : List Char := "boom".data

/-- Concrete coordinator work: the analysis of group 2 (index 1) always
fails, the others succeed with their index as text. -/
def c3Work : FileGroup → Nat → Except (List Char) (List Char) :=
  fun _ index =>
    if index = 1 then Except.error c3BoomMessage
    else Except.ok (Nat.repr index).data

/-- A one-file manifest for the assisted-grouping counterexample. -/
def c4File : FileTokenInfo :=
  { filePath := "a.ts", tokens := 10, content := [] }

/-- A structured proposal claiming the single manifest file. -/
def c4Proposal : AIGroupProposal :=
  { name := "G".data, description := [], reasoning := [], customPrompt := [],
    files := ["a.ts"] }

/-- A proposal list that lists the same manifest file in two proposed
groups. -/
def c4DupProposals : List AIGroupProposal := [c4Proposal, c4Proposal]

/-- A concrete plan group with one readable and one vanished file. -/
def c9Group : PlanGroup :=
  { files := [{ filePath := "a.ts", tokens := 3 },
              { filePath := "gone.ts", tokens := 4 }],
    totalTokens := 7, groupIndex := 0, name := none, description := none,
    reasoning := none, customPrompt := none }

/-- A concrete serialized plan with one readable and one vanished file. -/
def c9Plan : List PlanGroup := [c9Group]

/-- A concrete filesystem in which only `a.ts` is still readable. -/
def c9Read : String → Option (List Char) :=
  fun p => if p = "a.ts" then some ("abc".data) else none

/-- Concrete parameters where every lower-priority key source is populated but
`geminiApiKeys` is a non-empty comma-separated string. -/
def c10Params : ApiParams :=
  { geminiApiKeys := some (KeysVal.str ("k1, k2".data)),
    geminiApiKeysArray := some ["zzz".data],
    geminiApiKey := some ("old".data),
    numberedKey := fun _ => some ("num".data),
    envGeminiApiKey := some ("env".data) }

/-! ### Lemmas about the greedy grouping loop -/

theorem createFileGroupsLoop_flatten_perm (m : Nat) :
    ∀ (fs cur : List FileTokenInfo) (ct gi : Nat),
    ((createFileGroupsLoop m fs cur ct gi).flatMap (fun g => g.files)).Perm
      (cur ++ fs) := by
  intro fs
  induction fs with
  | nil =>
    intro cur ct gi
    by_cases h : cur.isEmpty
    · rw [List.isEmpty_iff] at h
      simp [createFileGroupsLoop, h]
    · simp [createFileGroupsLoop, h]
  | cons file rest ih =>
    intro cur ct gi
    by_cases h1 : file.tokens > m
    · simp only [createFileGroupsLoop, if_pos h1, List.flatMap_cons]
      refine List.Perm.trans (List.Perm.cons file (ih cur ct (gi + 1))) ?_
      exact List.perm_middle.symm
    · by_cases h2 : ct + file.tokens > m ∧ ¬ cur.isEmpty
      · simp only [createFileGroupsLoop, if_neg h1, if_pos h2,
          List.flatMap_cons]
        refine List.Perm.trans
          (List.Perm.append_left cur (ih [file] file.tokens (gi + 1))) ?_
        simp
      · simp only [createFileGroupsLoop, if_neg h1, if_neg h2]
        refine List.Perm.trans (ih (cur ++ [file]) (ct + file.tokens) gi) ?_
        simp

theorem createFileGroupsLoop_sum (m : Nat) :
    ∀ (fs cur : List FileTokenInfo) (ct gi : Nat), ct = sumTokens cur →
    sumGroups (createFileGroupsLoop m fs cur ct gi) = ct + sumTokens fs := by
  intro fs
  induction fs with
  | nil =>
    intro cur ct gi hct
    by_cases h : cur.isEmpty
    · rw [List.isEmpty_iff] at h
      subst h
      simp [sumTokens] at hct
      simp [createFileGroupsLoop, sumGroups, sumTokens, hct]
    · simp [createFileGroupsLoop, h, sumGroups, sumTokens]
  | cons file rest ih =>
    intro cur ct gi hct
    by_cases h1 : file.tokens > m
    · simp only [createFileGroupsLoop, if_pos h1]
      simp only [sumGroups, List.map_cons, List.sum_cons] at *
      rw [ih cur ct (gi + 1) hct]
      simp [sumTokens]
      omega
    · by_cases h2 : ct + file.tokens > m ∧ ¬ cur.isEmpty
      · simp only [createFileGroupsLoop, if_neg h1, if_pos h2]
        simp only [sumGroups, List.map_cons, List.sum_cons] at *
        rw [ih [file] file.tokens (gi + 1) (by simp [sumTokens])]
        simp [sumTokens]
      · simp only [createFileGroupsLoop, if_neg h1, if_neg h2]
        rw [ih (cur ++ [file]) (ct + file.tokens) gi
          (by simp [sumTokens, hct])]
        simp [sumTokens]
        omega

theorem createFileGroupsLoop_groupSum (m : Nat) :
    ∀ (fs cur : List FileTokenInfo) (ct gi : Nat), ct = sumTokens cur →
    ∀ g ∈ createFileGroupsLoop m fs cur ct gi,
      g.totalTokens = sumTokens g.files := by
  intro fs
  induction fs with
  | nil =>
    intro cur ct gi hct g hg
    by_cases h : cur.isEmpty
    · simp [createFileGroupsLoop, h] at hg
    · simp [createFileGroupsLoop, h] at hg
      subst hg
      exact hct
  | cons file rest ih =>
    intro cur ct gi hct g hg
    by_cases h1 : file.tokens > m
    · simp only [createFileGroupsLoop, if_pos h1, List.mem_cons] at hg
      rcases hg with hg | hg
      · subst hg; simp [sumTokens]
      · exact ih cur ct (gi + 1) hct g hg
    · by_cases h2 : ct + file.tokens > m ∧ ¬ cur.isEmpty
      · simp only [createFileGroupsLoop, if_neg h1, if_pos h2,
          List.mem_cons] at hg
        rcases hg with hg | hg
        · subst hg; exact hct
        · exact ih [file] file.tokens (gi + 1) (by simp [sumTokens]) g hg
      · simp only [createFileGroupsLoop, if_neg h1, if_neg h2] at hg
        exact ih (cur ++ [file]) (ct + file.tokens) gi
          (by simp [sumTokens, hct]) g hg

theorem createFileGroupsLoop_bound (m : Nat) :
    ∀ (fs cur : List FileTokenInfo) (ct gi : Nat),
    ct = sumTokens cur → ct ≤ m →
    ∀ g ∈ createFileGroupsLoop m fs cur ct gi,
      g.totalTokens ≤ m ∨ ∃ f, g.files = [f] ∧ f.tokens > m := by
  intro fs
  induction fs with
  | nil =>
    intro cur ct gi _ hle g hg
    by_cases h : cur.isEmpty
    · simp [createFileGroupsLoop, h] at hg
    · simp [createFileGroupsLoop, h] at hg
      subst hg
      exact Or.inl hle
  | cons file rest ih =>
    intro cur ct gi hct hle g hg
    by_cases h1 : file.tokens > m
    · simp only [createFileGroupsLoop, if_pos h1, List.mem_cons] at hg
      rcases hg with hg | hg
      · subst hg
        exact Or.inr ⟨file, rfl, h1⟩
      · exact ih cur ct (gi + 1) hct hle g hg
    · by_cases h2 : ct + file.tokens > m ∧ ¬ cur.isEmpty
      · simp only [createFileGroupsLoop, if_neg h1, if_pos h2,
          List.mem_cons] at hg
        rcases hg with hg | hg
        · subst hg
          exact Or.inl hle
        · exact ih [file] file.tokens (gi + 1) (by simp [sumTokens])
            (by omega) g hg
      · simp only [createFileGroupsLoop, if_neg h1, if_neg h2] at hg
        have hnew : ct + file.tokens ≤ m := by
          rcases Decidable.not_and_iff_or_not.mp h2 with h | h
          · omega
          · have hcur : cur = [] := by
              rw [← List.isEmpty_iff]
              exact Decidable.of_not_not h
            subst hcur
            simp [sumTokens] at hct
            omega
        exact ih (cur ++ [file]) (ct + file.tokens) gi
          (by simp [sumTokens, hct]) hnew g hg

/-! ### Lemmas about the deterministic strategy -/

theorem createFileGroupsAlgorithmic_perm (files : List FileTokenInfo)
    (m si : Nat) :
    ((createFileGroupsAlgorithmic files m si).flatMap
      (fun g => g.files)).Perm files := by
  refine List.Perm.trans
    (createFileGroupsLoop_flatten_perm m _ [] 0 si) ?_
  simpa using List.perm_insertionSort (fun a b => a.tokens ≤ b.tokens) files

theorem createFileGroupsAlgorithmic_sum (files : List FileTokenInfo)
    (m si : Nat) :
    sumGroups (createFileGroupsAlgorithmic files m si) = sumTokens files := by
  rw [createFileGroupsAlgorithmic,
    createFileGroupsLoop_sum m _ [] 0 si (by simp [sumTokens])]
  have hperm := List.perm_insertionSort (fun a b => a.tokens ≤ b.tokens) files
  simpa [sumTokens] using (hperm.map (fun f => f.tokens)).sum_eq

theorem createFileGroupsAlgorithmic_groupSum (files : List FileTokenInfo)
    (m si : Nat) :
    ∀ g ∈ createFileGroupsAlgorithmic files m si,
      g.totalTokens = sumTokens g.files :=
  createFileGroupsLoop_groupSum m _ [] 0 si (by simp [sumTokens])

theorem createFileGroupsAlgorithmic_bound (files : List FileTokenInfo)
    (m si : Nat) :
    ∀ g ∈ createFileGroupsAlgorithmic files m si,
      g.totalTokens ≤ m ∨ ∃ f, g.files = [f] ∧ f.tokens > m :=
  createFileGroupsLoop_bound m _ [] 0 si (by simp [sumTokens]) (Nat.zero_le m)

/-! ### Lemmas about the token estimators -/

theorem isPre_iff_append {p l : List Char} :
    isPre p l = true ↔ ∃ r, l = p ++ r := by
  induction p generalizing l with
  | nil => simp [isPre]
  | cons a pa ih =>
    cases l with
    | nil => simp [isPre]
    | cons b pl =>
      simp only [isPre, Bool.and_eq_true, beq_iff_eq]
      constructor
      · rintro ⟨rfl, h⟩
        rcases ih.mp h with ⟨r, rfl⟩
        exact ⟨r, rfl⟩
      · rintro ⟨r, hr⟩
        rw [List.cons_append] at hr
        cases hr
        exact ⟨rfl, ih.mpr ⟨r, rfl⟩⟩

theorem isPre_length {p l : List Char} (h : isPre p l = true) :
    p.length ≤ l.length := by
  rcases isPre_iff_append.mp h with ⟨r, rfl⟩
  simp

theorem isPre_append {p l : List Char} (s : List Char)
    (h : isPre p l = true) : isPre p (l ++ s) = true := by
  rcases isPre_iff_append.mp h with ⟨r, rfl⟩
  exact isPre_iff_append.mpr ⟨r ++ s, by simp⟩

theorem isPre_of_append_le {p l s : List Char}
    (h : isPre p (l ++ s) = true) (hl : p.length ≤ l.length) :
    isPre p l = true := by
  induction p generalizing l with
  | nil => simp [isPre]
  | cons a pa ih =>
    cases l with
    | nil => simp at hl
    | cons b bl =>
      simp only [List.cons_append, isPre, Bool.and_eq_true] at h ⊢
      exact ⟨h.1, ih h.2 (by simpa using hl)⟩

theorem isPre_head_of_append {t k s : List Char}
    (h : isPre k (t ++ s) = true) (hl : t.length ≤ k.length) :
    isPre t k = true := by
  induction t generalizing k with
  | nil => simp [isPre]
  | cons c tr ih =>
    cases k with
    | nil => simp at hl
    | cons a ka =>
      simp only [List.cons_append, isPre, Bool.and_eq_true, beq_iff_eq]
        at h ⊢
      exact ⟨h.1.symm, ih h.2 (by simpa using hl)⟩

theorem isPre_drop_transfer {t k k2 : List Char} (p : Nat)
    (htk : isPre t k = true) (h2 : isPre k2 (t.drop p) = true) :
    isPre k2 (k.drop p) = true := by
  rcases isPre_iff_append.mp htk with ⟨r, rfl⟩
  rcases isPre_iff_append.mp h2 with ⟨r2, hdr⟩
  by_cases hp : p ≤ t.length
  · rw [List.drop_append_of_le_length hp, hdr]
    exact isPre_iff_append.mpr ⟨r2 ++ r, by simp⟩
  · have hnil : t.drop p = [] := List.drop_eq_nil_of_le (by omega)
    rw [hnil] at hdr
    have : k2 = [] := by
      cases k2 with
      | nil => rfl
      | cons x xs => simp at hdr
    subst this
    simp [isPre]

theorem kwAt_some {l k : List Char} (h : kwAt l = some k) :
    k ∈ kws ∧ isPre k l = true := by
  rw [kwAt] at h
  exact ⟨List.mem_of_find?_eq_some h, by simpa using List.find?_some h⟩

theorem kwAt_none {l : List Char} (h : kwAt l = none) :
    ∀ k ∈ kws, isPre k l = false := by
  intro k hk
  have := List.find?_eq_none.mp h k hk
  simpa using this

theorem kws_len_pos : ∀ k ∈ kws, 1 ≤ k.length := by decide

theorem kws_len_le : ∀ k ∈ kws, k.length ≤ 9 := by decide

theorem kws_no_proper_head :
    ∀ k ∈ kws, ∀ k2 ∈ kws, isPre k2 k = true → k2 = k := by decide

theorem kws_no_internal :
    ∀ k ∈ kws, ∀ k2 ∈ kws, ∀ p ∈ List.range 10, p ≠ 0 →
      isPre k2 (k.drop p) = false := by decide

theorem find?_isPre_append {t s k : List Char} (L : List (List Char))
    (hsub : ∀ x ∈ L, x ∈ kws)
    (h : L.find? (fun kw => isPre kw t) = some k) :
    L.find? (fun kw => isPre kw (t ++ s)) = some k := by
  induction L with
  | nil => simp at h
  | cons hd tl ih =>
    by_cases hh : isPre hd t = true
    · rw [List.find?_cons_of_pos (p := fun kw => isPre kw t) tl hh] at h
      cases h
      exact List.find?_cons_of_pos (p := fun kw => isPre kw (t ++ s)) tl
        (isPre_append s hh)
    · rw [List.find?_cons_of_neg (p := fun kw => isPre kw t) tl
        (by simpa using hh)] at h
      have hk : isPre k t = true := by
        simpa using List.find?_some h
      have hkmem : k ∈ kws := hsub k (List.mem_cons_of_mem hd
        (List.mem_of_find?_eq_some h))
      have hhd : isPre hd (t ++ s) = false := by
        by_contra hcon
        have hcon : isPre hd (t ++ s) = true := by
          simpa using hcon
        have hlen : t.length < hd.length := by
          by_contra hle
          exact hh (isPre_of_append_le hcon (by omega))
        have hthd : isPre t hd = true :=
          isPre_head_of_append hcon (by omega)
        have hkhd : isPre k hd = true := by
          rcases isPre_iff_append.mp hk with ⟨r, rfl⟩
          rcases isPre_iff_append.mp hthd with ⟨r2, hr2⟩
          exact isPre_iff_append.mpr ⟨r ++ r2, by simp [hr2]⟩
        have := kws_no_proper_head hd (hsub hd (List.mem_cons_self hd tl))
          k hkmem hkhd
        subst this
        have := isPre_length hk
        omega
      rw [List.find?_cons_of_neg (p := fun kw => isPre kw (t ++ s)) tl
        (by simp [hhd])]
      exact ih (fun x hx => hsub x (List.mem_cons_of_mem hd hx)) h

theorem kwAt_append_some {t s k : List Char} (h : kwAt t = some k) :
    kwAt (t ++ s) = some k :=
  find?_isPre_append kws (fun _ hx => hx) h

theorem kwAt_straddle {t s k : List Char} (hn : kwAt t = none)
    (hs : kwAt (t ++ s) = some k) :
    t.length < k.length ∧ isPre t k = true := by
  have hk := kwAt_some hs
  have hlen : t.length < k.length := by
    by_contra h
    have h1 := isPre_of_append_le hk.2 (by omega)
    have h2 := kwAt_none hn k hk.1
    rw [h1] at h2
    simp at h2
  exact ⟨hlen, isPre_head_of_append hk.2 (by omega)⟩

theorem kwAt_drop_none {t k : List Char} (hk : k ∈ kws)
    (htk : isPre t k = true) (hlen : t.length < k.length) (p : Nat)
    (hp : 1 ≤ p) : kwAt (t.drop p) = none := by
  rw [kwAt, List.find?_eq_none]
  intro k2 hk2 hcon
  have hcon : isPre k2 (t.drop p) = true := by simpa using hcon
  have h2 : isPre k2 (k.drop p) = true := isPre_drop_transfer p htk hcon
  have hk2len : 1 ≤ k2.length := kws_len_pos k2 hk2
  have hlendrop := isPre_length h2
  rw [List.length_drop] at hlendrop
  have hkle : k.length ≤ 9 := kws_len_le k hk
  have hfalse := kws_no_internal k hk k2 hk2 p
    (by rw [List.mem_range]; omega) (by omega)
  rw [h2] at hfalse
  simp at hfalse

theorem kwScanF_nil : ∀ fuel, kwScanF fuel [] = 0 := by
  intro fuel
  cases fuel <;> rfl

theorem kwAt_length_pos {l k : List Char} (h : kwAt l = some k) :
    1 ≤ k.length :=
  kws_len_pos k (kwAt_some h).1

theorem kwScanF_fuel_eq :
    ∀ (f1 f2 : Nat) (l : List Char), l.length ≤ f1 → l.length ≤ f2 →
      kwScanF f1 l = kwScanF f2 l := by
  intro f1
  induction f1 with
  | zero =>
    intro f2 l h1 _
    have : l = [] := List.length_eq_zero.mp (by omega)
    subst this
    rw [kwScanF_nil, kwScanF_nil]
  | succ n ih =>
    intro f2 l h1 h2
    cases l with
    | nil => rw [kwScanF_nil, kwScanF_nil]
    | cons c rest =>
      cases f2 with
      | zero => simp at h2
      | succ m =>
        cases hk : kwAt (c :: rest) with
        | some k =>
          have hkl := kwAt_length_pos hk
          have hd1 : ((c :: rest).drop k.length).length ≤ n := by
            rw [List.length_drop]
            simp only [List.length_cons] at h1 ⊢
            omega
          have hd2 : ((c :: rest).drop k.length).length ≤ m := by
            rw [List.length_drop]
            simp only [List.length_cons] at h2 ⊢
            omega
          simp only [kwScanF, hk]
          rw [ih m _ hd1 hd2]
        | none =>
          simp only [kwScanF, hk]
          exact ih m rest (by simp at h1; omega) (by simp at h2; omega)

theorem kwScan_cons_some {c : Char} {rest k : List Char}
    (hk : kwAt (c :: rest) = some k) :
    kwScan (c :: rest) = 1 + kwScan ((c :: rest).drop k.length) := by
  have hkl := kwAt_length_pos hk
  rw [kwScan, kwScan]
  simp only [List.length_cons, kwScanF, hk]
  congr 1
  apply kwScanF_fuel_eq
  · rw [List.length_drop]; simp; omega
  · exact le_refl _

theorem kwScan_cons_none {c : Char} {rest : List Char}
    (hk : kwAt (c :: rest) = none) : kwScan (c :: rest) = kwScan rest := by
  rw [kwScan, kwScan]
  simp only [List.length_cons, kwScanF, hk]

theorem kwScan_zero_of_no_match {t : List Char}
    (h : ∀ p, kwAt (t.drop p) = none) : kwScan t = 0 := by
  induction t with
  | nil => rfl
  | cons c rest ih =>
    have h0 : kwAt (c :: rest) = none := by simpa using h 0
    rw [kwScan_cons_none h0]
    apply ih
    intro p
    simpa [List.drop_succ_cons] using h (p + 1)

theorem kwScan_le_append_aux :
    ∀ (n : Nat) (t s : List Char), t.length ≤ n →
      kwScan t ≤ kwScan (t ++ s) := by
  intro n
  induction n with
  | zero =>
    intro t s h
    have : t = [] := List.length_eq_zero.mp (by omega)
    subst this
    simp [kwScan, kwScanF_nil]
  | succ n ih =>
    intro t s ht
    cases t with
    | nil => simp [kwScan, kwScanF_nil]
    | cons c rest =>
      cases hk : kwAt (c :: rest) with
      | some k =>
        have hk2 : kwAt (c :: (rest ++ s)) = some k := by
          simpa using kwAt_append_some (s := s) hk
        have hlen : k.length ≤ (c :: rest).length :=
          isPre_length (kwAt_some hk).2
        have hdrop : (c :: (rest ++ s)).drop k.length =
            (c :: rest).drop k.length ++ s := by
          simpa using
            @List.drop_append_of_le_length Char (c :: rest) s k.length hlen
        rw [List.cons_append, kwScan_cons_some hk, kwScan_cons_some hk2,
          hdrop]
        have hkl := kwAt_length_pos hk
        refine Nat.add_le_add_left (ih _ s ?_) 1
        rw [List.length_drop]
        simp only [List.length_cons] at ht ⊢
        omega
      | none =>
        cases hk2 : kwAt (c :: (rest ++ s)) with
        | none =>
          rw [List.cons_append, kwScan_cons_none hk, kwScan_cons_none hk2]
          exact ih rest s (by simp at ht; omega)
        | some k =>
          have hk2b : kwAt ((c :: rest) ++ s) = some k := by
            simpa using hk2
          have hstr : (c :: rest).length < k.length ∧
              isPre (c :: rest) k = true := kwAt_straddle hk hk2b
          have hzero : kwScan (c :: rest) = 0 := by
            apply kwScan_zero_of_no_match
            intro p
            cases p with
            | zero => simpa using hk
            | succ q =>
              refine kwAt_drop_none ?_ hstr.2 hstr.1 (q + 1) (by omega)
              have := kwAt_some (l := c :: (rest ++ s)) hk2
              exact this.1
          rw [hzero]
          exact Nat.zero_le _

theorem kwScan_le_append (t s : List Char) : kwScan t ≤ kwScan (t ++ s) :=
  kwScan_le_append_aux t.length t s (le_refl _)

theorem dropWhile_length_le (p : Char → Bool) :
    ∀ l : List Char, (l.dropWhile p).length ≤ l.length := by
  intro l
  induction l with
  | nil => simp
  | cons a l ih =>
    by_cases h : p a
    · simp only [List.dropWhile_cons, if_pos h]
      simp only [List.length_cons]
      omega
    · simp [List.dropWhile_cons, h]

theorem spaceRunsF_nil : ∀ fuel, spaceRunsF fuel [] = 0 := by
  intro fuel
  cases fuel <;> rfl

theorem spaceRunsF_single : ∀ fuel c, spaceRunsF fuel [c] = 0 := by
  intro fuel c
  cases fuel <;> rfl

theorem spaceRunsF_fuel_eq :
    ∀ (f1 f2 : Nat) (l : List Char), l.length ≤ f1 → l.length ≤ f2 →
      spaceRunsF f1 l = spaceRunsF f2 l := by
  intro f1
  induction f1 with
  | zero =>
    intro f2 l h1 _
    have : l = [] := List.length_eq_zero.mp (by omega)
    subst this
    rw [spaceRunsF_nil, spaceRunsF_nil]
  | succ n ih =>
    intro f2 l h1 h2
    cases l with
    | nil => rw [spaceRunsF_nil, spaceRunsF_nil]
    | cons a l1 =>
      cases l1 with
      | nil => rw [spaceRunsF_single, spaceRunsF_single]
      | cons b rest =>
        cases f2 with
        | zero => simp at h2
        | succ m =>
          by_cases hab : a = ' ' ∧ b = ' '
          · simp only [spaceRunsF, if_pos hab]
            have hd := dropWhile_length_le (fun c => c = ' ') rest
            simp only [List.length_cons] at h1 h2
            rw [ih m _ (by omega) (by omega)]
          · simp only [spaceRunsF, if_neg hab]
            simp only [List.length_cons] at h1 h2
            exact ih m (b :: rest) (by simp; omega) (by simp; omega)

theorem spaceRunsF_cons2_pos {a b : Char} {rest : List Char} (fuel : Nat)
    (hab : a = ' ' ∧ b = ' ') :
    spaceRunsF (fuel + 1) (a :: b :: rest) =
      1 + spaceRunsF fuel (rest.dropWhile (fun c => c = ' ')) := by
  simp only [spaceRunsF, if_pos hab]

theorem spaceRunsF_cons2_neg {a b : Char} {rest : List Char} (fuel : Nat)
    (hab : ¬ (a = ' ' ∧ b = ' ')) :
    spaceRunsF (fuel + 1) (a :: b :: rest) = spaceRunsF fuel (b :: rest) := by
  simp only [spaceRunsF, if_neg hab]

theorem spaceRuns_cons2_pos {a b : Char} {rest : List Char}
    (hab : a = ' ' ∧ b = ' ') :
    spaceRuns (a :: b :: rest) =
      1 + spaceRuns (rest.dropWhile (fun c => c = ' ')) := by
  rw [spaceRuns, spaceRuns]
  simp only [List.length_cons]
  rw [spaceRunsF_cons2_pos (rest.length + 1) hab]
  congr 1
  apply spaceRunsF_fuel_eq
  · have := dropWhile_length_le (fun c => c = ' ') rest
    omega
  · exact le_refl _

theorem spaceRuns_cons2_neg {a b : Char} {rest : List Char}
    (hab : ¬ (a = ' ' ∧ b = ' ')) :
    spaceRuns (a :: b :: rest) = spaceRuns (b :: rest) := by
  rw [spaceRuns, spaceRuns]
  simp only [List.length_cons]
  rw [spaceRunsF_cons2_neg (rest.length + 1) hab]

theorem spaceRuns_le_append_aux :
    ∀ (n : Nat) (t s : List Char), t.length ≤ n →
      spaceRuns t ≤ spaceRuns (t ++ s) := by
  intro n
  induction n with
  | zero =>
    intro t s h
    have : t = [] := List.length_eq_zero.mp (by omega)
    subst this
    simp [spaceRuns, spaceRunsF_nil]
  | succ n ih =>
    intro t s ht
    cases t with
    | nil => simp [spaceRuns, spaceRunsF_nil]
    | cons a l1 =>
      cases l1 with
      | nil =>
        rw [spaceRuns]
        simp only [List.length_cons, List.length_nil, spaceRunsF]
        exact Nat.zero_le _
      | cons b rest =>
        simp only [List.length_cons] at ht
        by_cases hab : a = ' ' ∧ b = ' '
        · rw [spaceRuns_cons2_pos hab, List.cons_append, List.cons_append,
            spaceRuns_cons2_pos hab]
          rw [List.dropWhile_append]
          by_cases hemp : (rest.dropWhile (fun c => c = ' ')).isEmpty
          · rw [if_pos hemp]
            rw [List.isEmpty_iff] at hemp
            rw [hemp]
            have h0 : spaceRuns ([] : List Char) = 0 := rfl
            rw [h0]
            omega
          · rw [if_neg hemp]
            refine Nat.add_le_add_left (ih _ s ?_) 1
            have := dropWhile_length_le (fun c => c = ' ') rest
            omega
        · rw [spaceRuns_cons2_neg hab, List.cons_append, List.cons_append,
            spaceRuns_cons2_neg hab]
          exact ih (b :: rest) s (by simp; omega)

theorem spaceRuns_le_append (t s : List Char) :
    spaceRuns t ≤ spaceRuns (t ++ s) :=
  spaceRuns_le_append_aux t.length t s (le_refl _)

/-! ### Lemmas about the assisted strategy -/

theorem find?_path_eq {files : List FileTokenInfo}
    (hnd : (files.map (fun f => f.filePath)).Nodup) {f : FileTokenInfo}
    (hf : f ∈ files) :
    files.find? (fun g => g.filePath = f.filePath) = some f := by
  induction files with
  | nil => simp at hf
  | cons g0 rest ih =>
    simp only [List.map_cons, List.nodup_cons, List.mem_map] at hnd
    by_cases h0 : g0.filePath = f.filePath
    · have : g0 = f := by
        rcases List.mem_cons.mp hf with h | h
        · exact h.symm
        · exact absurd ⟨f, h, h0.symm⟩ hnd.1
      subst this
      exact List.find?_cons_of_pos rest (by simp [h0])
    · have hf2 : f ∈ rest := by
        rcases List.mem_cons.mp hf with h | h
        · exact absurd (h ▸ rfl) h0
        · exact h
      rw [List.find?_cons_of_neg rest (by simpa using h0)]
      exact ih hnd.2 hf2

theorem count_filterMap_find {files : List FileTokenInfo}
    (hnd : (files.map (fun f => f.filePath)).Nodup) {f : FileTokenInfo}
    (hf : f ∈ files) :
    ∀ L : List String,
      (L.filterMap (fun fp =>
        files.find? (fun g => g.filePath = fp))).count f =
        L.count f.filePath := by
  intro L
  induction L with
  | nil => simp
  | cons fp rest ih =>
    by_cases hfp : fp = f.filePath
    · subst hfp
      rw [List.filterMap_cons]
      rw [find?_path_eq hnd hf]
      simp only [List.count_cons, ih]
      simp
    · rw [List.filterMap_cons]
      cases hfind : files.find? (fun g => g.filePath = fp) with
      | none =>
        rw [ih]
        simp [List.count_cons, Ne.symm hfp]
      | some g =>
        have hg : g.filePath = fp := by
          simpa using List.find?_some hfind
        have hgf : g ≠ f := by
          intro h
          subst h
          exact hfp (hg.symm)
        simp only [List.count_cons, ih]
        simp [hgf, hfp]

theorem mem_filterMap_find {files : List FileTokenInfo} {L : List String}
    {x : FileTokenInfo}
    (hx : x ∈ L.filterMap (fun fp =>
      files.find? (fun g => g.filePath = fp))) : x ∈ files := by
  rcases List.mem_filterMap.mp hx with ⟨fp, _, hfind⟩
  exact List.mem_of_find?_eq_some hfind

theorem processAIGroups_flat_perm (files : List FileTokenInfo) (m : Nat) :
    ∀ (ps : List AIGroupProposal) (gi : Nat),
      (((processAIGroups files m ps gi).1).flatMap (fun g => g.files)).Perm
        ((ps.flatMap (fun p => p.files)).filterMap (fun fp =>
          files.find? (fun f => f.filePath = fp))) := by
  intro ps
  induction ps with
  | nil =>
    intro gi
    simp [processAIGroups]
  | cons p rest ih =>
    intro gi
    rw [List.flatMap_cons, List.filterMap_append]
    by_cases hbig :
        ((p.files.filterMap (fun fp =>
          files.find? (fun f => f.filePath = fp))).map
            (fun f => f.tokens)).sum > m
    · simp only [processAIGroups, if_pos hbig, List.flatMap_append]
      exact List.Perm.append (createFileGroupsAlgorithmic_perm _ m gi)
        (ih _)
    · simp only [processAIGroups, if_neg hbig, List.flatMap_cons]
      exact List.Perm.append (List.Perm.refl _) (ih _)

theorem processAIGroups_groupSum (files : List FileTokenInfo) (m : Nat) :
    ∀ (ps : List AIGroupProposal) (gi : Nat),
      ∀ g ∈ (processAIGroups files m ps gi).1,
        g.totalTokens = sumTokens g.files := by
  intro ps
  induction ps with
  | nil =>
    intro gi g hg
    simp [processAIGroups] at hg
  | cons p rest ih =>
    intro gi g hg
    by_cases hbig :
        ((p.files.filterMap (fun fp =>
          files.find? (fun f => f.filePath = fp))).map
            (fun f => f.tokens)).sum > m
    · simp only [processAIGroups, if_pos hbig, List.mem_append] at hg
      rcases hg with hg | hg
      · exact createFileGroupsAlgorithmic_groupSum _ m gi g hg
      · exact ih _ g hg
    · simp only [processAIGroups, if_neg hbig, List.mem_cons] at hg
      rcases hg with hg | hg
      · subst hg
        rfl
      · exact ih _ g hg

theorem sumGroups_eq_of_groupSum :
    ∀ gs : List FileGroup,
      (∀ g ∈ gs, g.totalTokens = sumTokens g.files) →
      sumGroups gs = sumTokens (gs.flatMap (fun g => g.files)) := by
  intro gs
  induction gs with
  | nil => intro _; rfl
  | cons g rest ih =>
    intro h
    have hone : sumGroups (g :: rest) = g.totalTokens + sumGroups rest := by
      simp [sumGroups]
    rw [List.flatMap_cons, hone, h g (List.mem_cons_self g rest),
      ih (fun g2 hg2 => h g2 (List.mem_cons_of_mem g hg2))]
    simp [sumTokens]

theorem perm_filter_of_nodup {A files : List FileTokenInfo}
    (pathNd : (files.map (fun f => f.filePath)).Nodup)
    (And : A.Nodup) (hsub : ∀ x ∈ A, x ∈ files) :
    A.Perm (files.filter (fun f =>
      (A.map (fun x => x.filePath)).contains f.filePath)) := by
  have filesNd : files.Nodup := List.Nodup.of_map _ pathNd
  rw [List.perm_iff_count]
  intro x
  by_cases hx : x ∈ A
  · rw [List.count_eq_one_of_mem And hx]
    have hxf : x ∈ files.filter (fun f =>
        (A.map (fun x => x.filePath)).contains f.filePath) := by
      refine List.mem_filter.mpr ⟨hsub x hx, ?_⟩
      simp [List.mem_map_of_mem _ hx]
    rw [List.count_eq_one_of_mem (filesNd.filter _) hxf]
  · rw [List.count_eq_zero.mpr hx]
    symm
    rw [List.count_eq_zero]
    intro hxf
    rcases List.mem_filter.mp hxf with ⟨hxfiles, hpred⟩
    have hmem : x.filePath ∈ A.map (fun x => x.filePath) := by
      simpa using hpred
    rcases List.mem_map.mp hmem with ⟨y, hyA, hyx⟩
    have : y = x := List.inj_on_of_nodup_map pathNd (hsub y hyA) hxfiles hyx
    exact hx (this ▸ hyA)

theorem grand_assembly {A : List FileGroup} {files : List FileTokenInfo}
    (pathNd : (files.map (fun f => f.filePath)).Nodup)
    (And : (A.flatMap (fun g => g.files)).Nodup)
    (hsub : ∀ x ∈ A.flatMap (fun g => g.files), x ∈ files) :
    (A.flatMap (fun g => g.files) ++
      files.filter (fun f =>
        ! (A.flatMap (fun g =>
          g.files.map (fun x => x.filePath))).contains f.filePath)).Perm
      files := by
  have hinc : A.flatMap (fun g => g.files.map (fun x => x.filePath)) =
      (A.flatMap (fun g => g.files)).map (fun x => x.filePath) :=
    (List.map_flatMap _ _ _).symm
  rw [hinc]
  have h1 := perm_filter_of_nodup pathNd And hsub
  exact (h1.append (List.Perm.refl _)).trans (List.filter_append_perm _ files)

theorem aiParsed_perm_and_sum (files : List FileTokenInfo) (m : Nat)
    (ps : List AIGroupProposal)
    (hnd : (files.map (fun f => f.filePath)).Nodup)
    (hcount : ∀ f ∈ files,
      ((ps.flatMap (fun p => p.files)).count f.filePath) ≤ 1) :
    (((createFileGroupsWithAIParsed files m ps).flatMap
      (fun g => g.files)).Perm files) ∧
    sumGroups (createFileGroupsWithAIParsed files m ps) = sumTokens files := by
  have aiPerm := processAIGroups_flat_perm files m ps 0
  have hsub : ∀ x ∈ (processAIGroups files m ps 0).1.flatMap
      (fun g => g.files), x ∈ files := by
    intro x hx
    exact mem_filterMap_find (aiPerm.mem_iff.mp hx)
  have And : ((processAIGroups files m ps 0).1.flatMap
      (fun g => g.files)).Nodup := by
    rw [List.nodup_iff_count_le_one]
    intro x
    rw [aiPerm.count_eq]
    by_cases hx : x ∈ files
    · rw [count_filterMap_find hnd hx]
      exact hcount x hx
    · rw [List.count_eq_zero.mpr (fun hmem => hx (mem_filterMap_find hmem))]
      omega
  have hflat : ((createFileGroupsWithAIParsed files m ps).flatMap
      (fun g => g.files)).Perm
      ((processAIGroups files m ps 0).1.flatMap (fun g => g.files) ++
        files.filter (fun f =>
          ! ((processAIGroups files m ps 0).1.flatMap (fun g =>
            g.files.map (fun x => x.filePath))).contains f.filePath)) := by
    rw [createFileGroupsWithAIParsed]
    by_cases hrem : (files.filter (fun f =>
        ! ((processAIGroups files m ps 0).1.flatMap (fun g =>
          g.files.map (fun x => x.filePath))).contains f.filePath)).length >
        0
    · simp only [if_pos hrem, List.flatMap_append]
      exact List.Perm.append (List.Perm.refl _)
        (createFileGroupsAlgorithmic_perm _ m _)
    · simp only [if_neg hrem]
      have hempty : files.filter (fun f =>
          ! ((processAIGroups files m ps 0).1.flatMap (fun g =>
            g.files.map (fun x => x.filePath))).contains f.filePath) = [] :=
        List.length_eq_zero.mp (by omega)
      rw [hempty, List.append_nil]
  have hperm : ((createFileGroupsWithAIParsed files m ps).flatMap
      (fun g => g.files)).Perm files :=
    hflat.trans (grand_assembly hnd And hsub)
  refine ⟨hperm, ?_⟩
  have hGroupSum : ∀ g ∈ createFileGroupsWithAIParsed files m ps,
      g.totalTokens = sumTokens g.files := by
    intro g hg
    rw [createFileGroupsWithAIParsed] at hg
    by_cases hrem : (files.filter (fun f =>
        ! ((processAIGroups files m ps 0).1.flatMap (fun g =>
          g.files.map (fun x => x.filePath))).contains f.filePath)).length >
        0
    · rw [if_pos hrem] at hg
      rcases List.mem_append.mp hg with hg | hg
      · exact processAIGroups_groupSum files m ps 0 g hg
      · exact createFileGroupsAlgorithmic_groupSum _ m _ g hg
    · rw [if_neg hrem] at hg
      exact processAIGroups_groupSum files m ps 0 g hg
  rw [sumGroups_eq_of_groupSum _ hGroupSum]
  have := (hperm.map (fun f => f.tokens)).sum_eq
  simpa [sumTokens] using this

/-! ### Lemmas about the batch coordinator and re-hydration -/

theorem analyzeAllFrom_length
    (work : FileGroup → Nat → Except (List Char) (List Char)) :
    ∀ (groups : List FileGroup) (start : Nat),
      (analyzeAllFrom work start groups).length = groups.length := by
  intro groups
  induction groups with
  | nil => intro start; rfl
  | cons g rest ih =>
    intro start
    simp [analyzeAllFrom, ih]

theorem analyzeAllFrom_getElem
    (work : FileGroup → Nat → Except (List Char) (List Char)) :
    ∀ (groups : List FileGroup) (start i : Nat),
      (analyzeAllFrom work start groups)[i]? =
        (groups[i]?).map (fun g => analyzeGroup work g (start + i)) := by
  intro groups
  induction groups with
  | nil => intro start i; simp [analyzeAllFrom]
  | cons g rest ih =>
    intro start i
    cases i with
    | zero => simp [analyzeAllFrom]
    | succ n =>
      simp only [analyzeAllFrom, List.getElem?_cons_succ]
      rw [ih (start + 1) n]
      have harith : start + 1 + n = start + (n + 1) := by omega
      rw [harith]

theorem rehydrateGroup_files (readFile : String → Option (List Char))
    (g : PlanGroup) :
    (rehydrateGroup readFile g).files.map (fun f => (f.filePath, f.tokens)) =
      (g.files.filter (fun fd => (readFile fd.filePath).isSome)).map
        (fun fd => (fd.filePath, fd.tokens)) := by
  show (g.files.filterMap (fun fd => (readFile fd.filePath).map
      (fun content =>
        ({ filePath := fd.filePath, tokens := fd.tokens,
           content := content } : FileTokenInfo)))).map
      (fun f => (f.filePath, f.tokens)) =
    (g.files.filter (fun fd => (readFile fd.filePath).isSome)).map
      (fun fd => (fd.filePath, fd.tokens))
  induction g.files with
  | nil => rfl
  | cons fd rest ih =>
    cases h : readFile fd.filePath with
    | none =>
      rw [List.filterMap_cons, List.filter_cons]
      simp [h, ih]
    | some content =>
      rw [List.filterMap_cons, List.filter_cons]
      simp [h, ih]

/-! ### Claim theorems -/

/-- C1: for every input manifest of files (token costs are non-negative
naturals) and every positive ceiling, the deterministic strategy
`createFileGroupsAlgorithmic` returns groups whose concatenated file lists
are a permutation of the manifest (every input file is in exactly one output
group), whose `totalTokens` sum to the sum of the input files' tokens, and in
which no group's `totalTokens` exceeds the ceiling unless the group is a
single file whose own cost exceeds the ceiling. -/
theorem claim_C1_deterministic_grouping_invariants :
    ∀ (files : List FileTokenInfo) (maxTokensPerGroup startIndex : Nat),
      0 < maxTokensPerGroup →
      (((createFileGroupsAlgorithmic files maxTokensPerGroup
        startIndex).flatMap (fun g => g.files)).Perm files) ∧
      sumGroups (createFileGroupsAlgorithmic files maxTokensPerGroup
        startIndex) = sumTokens files ∧
      (∀ g ∈ createFileGroupsAlgorithmic files maxTokensPerGroup startIndex,
        g.totalTokens ≤ maxTokensPerGroup ∨
          ∃ f, g.files = [f] ∧ f.tokens > maxTokensPerGroup) := by
  intro files m si _
  exact ⟨createFileGroupsAlgorithmic_perm files m si,
    createFileGroupsAlgorithmic_sum files m si,
    createFileGroupsAlgorithmic_bound files m si⟩

/-- Witness for C1 at the concrete one-file manifest `[c1File]` with
ceiling 10. -/
theorem claim_C1_witness :
    0 < 10 ∧
    ((((createFileGroupsAlgorithmic [c1File] 10 0).flatMap
      (fun g => g.files)).Perm [c1File]) ∧
      sumGroups (createFileGroupsAlgorithmic [c1File] 10 0) =
        sumTokens [c1File] ∧
      (∀ g ∈ createFileGroupsAlgorithmic [c1File] 10 0,
        g.totalTokens ≤ 10 ∨ ∃ f, g.files = [f] ∧ f.tokens > 10)) :=
  ⟨by decide,
    claim_C1_deterministic_grouping_invariants [c1File] 10 0 (by decide)⟩

/-- C8: for the manifest of 5 files of 200,000 tokens each and ceiling
900,000, the deterministic strategy yields exactly 2 groups: the first with 4
files totalling 800,000 tokens, the second with the remaining 1 file — never
1 and never 5 groups. -/
theorem claim_C8_five_file_scenario :
    (createFileGroupsAlgorithmic c8Files 900000 0).length = 2 ∧
    (createFileGroupsAlgorithmic c8Files 900000 0).map
      (fun g => (g.files.length, g.totalTokens)) =
      [(4, 800000), (1, 200000)] := by
  decide

/-- C5: if the assisted grouping attempt fails for any reason (modelled by
the `Except.error` outcome of its try-block), `createFileGroupsWithAI`
returns exactly the deterministic strategy's result on the whole manifest,
and consequently no file is dropped. -/
theorem claim_C5_assisted_fallback :
    ∀ (files : List FileTokenInfo) (maxTokensPerGroup : Nat) (e : List Char),
      createFileGroupsWithAI files maxTokensPerGroup (Except.error e) =
        createFileGroupsAlgorithmic files maxTokensPerGroup 0 ∧
      ((createFileGroupsWithAI files maxTokensPerGroup
        (Except.error e)).flatMap (fun g => g.files)).Perm files := by
  intro files m e
  exact ⟨rfl, createFileGroupsAlgorithmic_perm files m 0⟩

/-- C6: both token estimators return at least `ceil(length / 4)` and are
monotone non-decreasing under appending a suffix. -/
theorem claim_C6_estimator_bounds :
    ∀ t s : List Char,
      (t.length + 3) / 4 ≤ calculateTokens t ∧
      calculateTokens t ≤ calculateTokens (t ++ s) ∧
      (t.length + 3) / 4 ≤ calculateFileTokens t ∧
      calculateFileTokens t ≤ calculateFileTokens (t ++ s) := by
  intro t s
  refine ⟨?_, ?_, ?_, ?_⟩
  · simp only [calculateTokens]
    omega
  · simp only [calculateTokens, List.length_append, List.count_append,
      List.countP_append]
    omega
  · simp only [calculateFileTokens]
    omega
  · have hsp := spaceRuns_le_append t s
    have hkw := kwScan_le_append t s
    simp only [calculateFileTokens, List.length_append, List.count_append,
      List.countP_append]
    omega

/-- C7: `validateTokenLimit` throws (returns `Except.error`) exactly when the
sum of the three independent estimates strictly exceeds 1,000,000, and
returns normally exactly when it does not.  The function itself performs no
network call; in the source it runs before the provider request is issued. -/
theorem claim_C7_token_limit_check :
    ∀ content systemPrompt question : List Char,
      ((∃ msg, validateTokenLimit content systemPrompt question =
          Except.error msg) ↔
        calculateTokens content + calculateTokens systemPrompt +
          calculateTokens question > 1000000) ∧
      (validateTokenLimit content systemPrompt question = Except.ok () ↔
        calculateTokens content + calculateTokens systemPrompt +
          calculateTokens question ≤ 1000000) := by
  intro c s q
  by_cases h : calculateTokens c + calculateTokens s + calculateTokens q >
      1000000
  · have heq : validateTokenLimit c s q = Except.error
        (tokenLimitExceededMessage (calculateTokens c) (calculateTokens s)
          (calculateTokens q) c.length) := by
      simp [validateTokenLimit, GEMINI_25_PRO_TOKEN_LIMIT, h]
    constructor
    · exact ⟨fun _ => h, fun _ => ⟨_, heq⟩⟩
    · constructor
      · intro hok
        rw [heq] at hok
        cases hok
      · intro hle
        omega
  · have heq : validateTokenLimit c s q = Except.ok () := by
      simp [validateTokenLimit, GEMINI_25_PRO_TOKEN_LIMIT, h]
    constructor
    · constructor
      · rintro ⟨msg, hmsg⟩
        rw [heq] at hmsg
        cases hmsg
      · intro hgt
        exact absurd hgt h
    · exact ⟨fun _ => by omega, fun _ => heq⟩

/-- C2 counterexample: the claim lists `try again later` among the rotatable
signatures, but the source matches only `Please try again later`.  With a
pool of size 1 and work always failing with the message `try again later`,
the executor does not rotate and retry as the claim requires: it propagates
the error after exactly one attempt (one key used, no backoff). -/
theorem claim_C2_counterexample :
    hasSub ("try again later".data) tryAgainLaterMessage = true ∧
    isRotatableError tryAgainLaterMessage = false ∧
    rotationRun tryAgainWork 1 240000 =
      { attemptKeys := [0], backoffs := 0,
        result := Except.error tryAgainLaterMessage } := by
  refine ⟨by decide, by decide, ?_⟩
  rfl

/-- C2 (amended): with the signature list as in the source (`429`,
`Too Many Requests`, `quota`, `rate limit`, `exceeded your current quota`,
`API key not valid`, `503`, `Service Unavailable`, `overloaded`,
`Please try again later`): while the deadline has not elapsed, a rotatable
failure advances the cursor to `(index + 1) % poolSize` (also for pool size
1), records one ~1s backoff and retries; any other failure is propagated
immediately after exactly that one attempt; and in the concrete
3-credential scenario where attempts 1 and 2 fail rotatably and attempt 3
succeeds, the executor returns the success having used exactly the 3
credentials in order. -/
theorem claim_C2_amended_rotation :
    (∀ (α : Type) (work : Nat → Nat → Except (List Char) α)
      (numKeys maxDur fuel elapsed keyIndex : Nat) (keys : List Nat)
      (lastErr : Option (List Char)) (e : List Char),
      elapsed < maxDur →
      work (keys.length + 1) keyIndex = Except.error e →
      isRotatableError e = true →
      rotationAux work numKeys maxDur (fuel + 1) elapsed keyIndex keys
        lastErr =
        rotationAux work numKeys maxDur fuel (elapsed + 1000)
          ((keyIndex + 1) % numKeys) (keys ++ [keyIndex]) (some e)) ∧
    (∀ (α : Type) (work : Nat → Nat → Except (List Char) α)
      (numKeys maxDur fuel elapsed keyIndex : Nat) (keys : List Nat)
      (lastErr : Option (List Char)) (e : List Char),
      elapsed < maxDur →
      work (keys.length + 1) keyIndex = Except.error e →
      isRotatableError e = false →
      rotationAux work numKeys maxDur (fuel + 1) elapsed keyIndex keys
        lastErr =
        { attemptKeys := keys ++ [keyIndex], backoffs := elapsed / 1000,
          result := Except.error e }) ∧
    rotationRun c2ScenarioWork 3 240000 =
      { attemptKeys := [0, 1, 2], backoffs := 2, result := Except.ok 42 } := by
  refine ⟨?_, ?_, ?_⟩
  · intro α work numKeys maxDur fuel elapsed keyIndex keys lastErr e hlt
      hwork hrot
    simp [rotationAux, hlt, hwork, hrot]
  · intro α work numKeys maxDur fuel elapsed keyIndex keys lastErr e hlt
      hwork hrot
    simp [rotationAux, hlt, hwork, hrot]
  · rfl

/-- Witness for the rotatable-step part of C2 at pool size 1 and the concrete
message `quota`: the cursor wraps back to the same key and the loop
retries. -/
theorem claim_C2_witness :
    0 < 240000 ∧ quotaWork 1 0 = Except.error sigQuota ∧
    isRotatableError sigQuota = true ∧
    rotationAux quotaWork 1 240000 6 0 0 [] none =
      rotationAux quotaWork 1 240000 5 1000 ((0 + 1) % 1) ([] ++ [0])
        (some sigQuota) :=
  ⟨by decide, rfl, by decide,
    claim_C2_amended_rotation.1 Nat quotaWork 1 240000 5 0 0 [] none sigQuota
      (by decide) rfl (by decide)⟩

/-- C3: the batch coordinator returns one outcome per group in input order
(positionally: outcome `i` is the analysis of group `i`); a group whose work
fails yields the failure marker carrying the error description while every
other group's analysis still runs; a group whose work succeeds yields its
analysis text; and in the 3-group scenario where group 2's work always
fails, the outcomes are, in order: group 1's text, the failure marker for
group 2, group 3's text. -/
theorem claim_C3_coordinator_outcomes :
    (∀ (work : FileGroup → Nat → Except (List Char) (List Char))
      (groups : List FileGroup),
      (analyzeAllGroups work groups).length = groups.length) ∧
    (∀ (work : FileGroup → Nat → Except (List Char) (List Char))
      (groups : List FileGroup) (i : Nat),
      (analyzeAllGroups work groups)[i]? =
        (groups[i]?).map (fun g => analyzeGroup work g i)) ∧
    (∀ (work : FileGroup → Nat → Except (List Char) (List Char))
      (group : FileGroup) (i : Nat) (e : List Char),
      work group i = Except.error e →
      analyzeGroup work group i = groupFailureMessage i e) ∧
    (∀ (work : FileGroup → Nat → Except (List Char) (List Char))
      (group : FileGroup) (i : Nat) (text : List Char),
      work group i = Except.ok text →
      analyzeGroup work group i = text) ∧
    analyzeAllGroups c3Work c3Groups =
      [(Nat.repr 0).data, groupFailureMessage 1 c3BoomMessage,
        (Nat.repr 2).data] := by
  refine ⟨?_, ?_, ?_, ?_, ?_⟩
  · intro work groups
    exact analyzeAllFrom_length work groups 0
  · intro work groups i
    have := analyzeAllFrom_getElem work groups 0 i
    simpa [analyzeAllGroups] using this
  · intro work group i e hw
    simp [analyzeGroup, hw]
  · intro work group i text hw
    simp [analyzeGroup, hw]
  · rfl

/-- Witness for C3's failure-isolation part at the concrete failing group. -/
theorem claim_C3_witness :
    c3Work (mkBareGroup 1) 1 = Except.error c3BoomMessage ∧
    analyzeGroup c3Work (mkBareGroup 1) 1 =
      groupFailureMessage 1 c3BoomMessage :=
  ⟨rfl, claim_C3_coordinator_outcomes.2.2.1 c3Work (mkBareGroup 1) 1
    c3BoomMessage rfl⟩

/-- C4 counterexample: with the one-file manifest `[c4File]` and a proposal
list that claims `a.ts` in two proposed groups, the assisted strategy puts
the file into both output groups: it occurs twice across the output and the
group token totals sum to 20 while the manifest's total is 10 — refuting the
claimed invariant for arbitrary proposals. -/
theorem claim_C4_counterexample :
    ((createFileGroupsWithAI [c4File] 100 (Except.ok c4DupProposals)).flatMap
      (fun g => g.files)).count c4File = 2 ∧
    sumGroups (createFileGroupsWithAI [c4File] 100
      (Except.ok c4DupProposals)) = 20 ∧
    sumTokens [c4File] = 10 := by
  decide

/-- C4 (amended): for every manifest whose file paths are distinct (the data
model's identity invariant) and every structured proposal that lists each
manifest file's path at most once across the proposed groups (paths absent
from the manifest and omitted files remain arbitrary), the assisted strategy
returns groups in which every manifest file appears in exactly one output
group and the group token totals sum to the manifest's total. -/
theorem claim_C4_amended_assisted_invariant :
    ∀ (files : List FileTokenInfo) (maxTokensPerGroup : Nat)
      (proposals : List AIGroupProposal),
      (files.map (fun f => f.filePath)).Nodup →
      (∀ f ∈ files,
        (proposals.flatMap (fun p => p.files)).count f.filePath ≤ 1) →
      (((createFileGroupsWithAI files maxTokensPerGroup
        (Except.ok proposals)).flatMap (fun g => g.files)).Perm files) ∧
      sumGroups (createFileGroupsWithAI files maxTokensPerGroup
        (Except.ok proposals)) = sumTokens files := by
  intro files m ps hnd hcount
  exact aiParsed_perm_and_sum files m ps hnd hcount

/-- Witness for the amended C4 at a concrete manifest and single-claim
proposal. -/
theorem claim_C4_witness :
    ([c4File].map (fun f => f.filePath)).Nodup ∧
    (∀ f ∈ [c4File],
      ([c4Proposal].flatMap (fun p => p.files)).count f.filePath ≤ 1) ∧
    ((((createFileGroupsWithAI [c4File] 100
      (Except.ok [c4Proposal])).flatMap (fun g => g.files)).Perm [c4File]) ∧
      sumGroups (createFileGroupsWithAI [c4File] 100
        (Except.ok [c4Proposal])) = sumTokens [c4File]) :=
  ⟨by decide, by decide,
    claim_C4_amended_assisted_invariant [c4File] 100 [c4Proposal] (by decide)
      (by decide)⟩

/-- C9: re-hydrating a serialized plan never fails: every plan group is
reconstructed, a reconstructed group's files are exactly the plan's files
that are still readable (in plan order, with their recorded token costs),
and the analysis step still produces one outcome per plan group. -/
theorem claim_C9_rehydration_tolerates_missing_files :
    ∀ (readFile : String → Option (List Char)) (plan : List PlanGroup),
      (rehydrateGroups readFile plan).length = plan.length ∧
      (∀ g ∈ plan,
        (rehydrateGroup readFile g).files.map
          (fun f => (f.filePath, f.tokens)) =
          (g.files.filter (fun fd => (readFile fd.filePath).isSome)).map
            (fun fd => (fd.filePath, fd.tokens))) ∧
      (∀ work, (analyzeAllGroups work (rehydrateGroups readFile plan)).length =
        plan.length) := by
  intro readFile plan
  refine ⟨by simp [rehydrateGroups], ?_, ?_⟩
  · intro g _
    exact rehydrateGroup_files readFile g
  · intro work
    rw [analyzeAllGroups, analyzeAllFrom_length]
    simp [rehydrateGroups]

/-- Witness for C9 at the concrete plan whose second file is unreadable. -/
theorem claim_C9_witness :
    c9Group ∈ c9Plan ∧
    (rehydrateGroup c9Read c9Group).files.map
      (fun f => (f.filePath, f.tokens)) =
      (c9Group.files.filter (fun fd => (c9Read fd.filePath).isSome)).map
        (fun fd => (fd.filePath, fd.tokens)) :=
  ⟨by decide,
    (claim_C9_rehydration_tolerates_missing_files c9Read c9Plan).2.1 c9Group
      (by decide)⟩

/-- C10: credential resolution gives strict precedence to `geminiApiKeys`: a
non-empty string is comma-split (entries trimmed, empties dropped) when it
contains a comma and wrapped singleton otherwise, a non-empty array is
returned as-is — in both cases ignoring `geminiApiKeysArray`,
`geminiApiKey`, the numbered fields and the environment variable; and when
no source yields a key the result is the empty list. -/
theorem claim_C10_key_resolution_precedence :
    (∀ (params : ApiParams) (v : List Char),
      params.geminiApiKeys = some (KeysVal.str v) → v ≠ [] →
      resolveApiKeys params =
        (if v.contains ',' then splitTrimFilter v else [v])) ∧
    (∀ (params : ApiParams) (l : List (List Char)),
      params.geminiApiKeys = some (KeysVal.arr l) → l ≠ [] →
      resolveApiKeys params = l) ∧
    (∀ params : ApiParams,
      (params.geminiApiKeys = none ∨
        params.geminiApiKeys = some (KeysVal.str []) ∨
        params.geminiApiKeys = some (KeysVal.arr [])) →
      (params.geminiApiKeysArray = none ∨
        params.geminiApiKeysArray = some []) →
      (params.geminiApiKey = none ∨ params.geminiApiKey = some []) →
      (∀ i, params.numberedKey i = none ∨ params.numberedKey i = some []) →
      (params.envGeminiApiKey = none ∨ params.envGeminiApiKey = some []) →
      resolveApiKeys params = []) := by
  refine ⟨?_, ?_, ?_⟩
  · intro params v h hv
    simp [resolveApiKeys, h, hv]
  · intro params l h hl
    simp [resolveApiKeys, h, hl]
  · intro params h1 h2 h3 h4 h5
    have hfm : (List.range' 2 99).filterMap (fun i =>
        match params.numberedKey i with
        | some v => if v ≠ [] then some v else none
        | none => none) = [] := by
      rw [List.filterMap_eq_nil_iff]
      intro i _
      rcases h4 i with h | h <;> simp [h]
    have hnum : resolveApiKeysNumbered params = [] := by
      simp only [resolveApiKeysNumbered]
      rw [hfm]
      rcases h3 with h3 | h3 <;> rcases h5 with h5 | h5 <;>
        simp [h3, h5]
    have hafter : resolveApiKeysAfterPrimary params = [] := by
      rcases h2 with h2 | h2 <;>
        simp [resolveApiKeysAfterPrimary, h2, hnum]
    rcases h1 with h1 | h1 | h1 <;> simp [resolveApiKeys, h1, hafter]

/-- Witness for the string-priority part of C10: with every other source
populated, the comma-separated `geminiApiKeys` string alone determines the
result. -/
theorem claim_C10_witness :
    c10Params.geminiApiKeys = some (KeysVal.str ("k1, k2".data)) ∧
    ("k1, k2".data ≠ ([] : List Char)) ∧
    resolveApiKeys c10Params =
      (if ("k1, k2".data).contains ',' then splitTrimFilter ("k1, k2".data)
        else ["k1, k2".data]) :=
  ⟨rfl, by decide,
    claim_C10_key_resolution_precedence.1 c10Params ("k1, k2".data) rfl
      (by decide)⟩

end GeminiRemote
